import Mathlib

/-!
Verification of the Git object-identifier component (crates/uv-git/src/sha.rs)
and the workspace manifest editor (crates/puffin-workspace/src/workspace.rs).

Rust strings are embedded as lists of their UTF-8 bytes (`List Nat`), so that
`len` is the byte length exactly as in the source.
-/

/-- Embeds `GitOid` (sha.rs): a `len : usize` together with a fixed
`bytes : [u8; 40]` buffer, the latter as a length-40 list of bytes. -/
structure GitOid where
  len : Nat
  bytes : List Nat
deriving DecidableEq

/-- Embeds `OidParseError` (sha.rs). -/
inductive OidParseError where
  | tooLong
  | empty
deriving DecidableEq

/-- Embeds `GitOid::from_str` (sha.rs): reject the empty string, reject more
than 40 bytes, otherwise copy the bytes into a zero-initialised 40-byte
buffer and record the length. No hexadecimal validation is performed. -/
def GitOid.fromStr (s : List Nat) : Except OidParseError GitOid :=
  if s.length = 0 then .error .empty
  else if 40 < s.length then .error .tooLong
  else .ok { len := s.length, bytes := s ++ List.replicate (40 - s.length) 0 }

/-- Embeds `GitOid::as_str` (sha.rs): the logical slice `bytes[..len]`.
The `str::from_utf8(...).unwrap()` of the source is total on every value
produced by `from_str`, since the buffer is copied from a Rust `str`. -/
def GitOid.asStr (o : GitOid) : List Nat := o.bytes.take o.len

/-- Embeds `GitSha` (sha.rs): a newtype over `GitOid`. -/
structure GitSha where
  oid : GitOid
deriving DecidableEq

/-- Embeds `GitSha::from_str` (sha.rs). -/
def GitSha.fromStr (s : List Nat) : Except OidParseError GitSha :=
  (GitOid.fromStr s).map GitSha.mk

/-- Embeds `str::is_char_boundary` on the UTF-8 bytes of a string: position
0, the end of the string, or any position holding a non-continuation byte. -/
def isCharBoundary (s : List Nat) (i : Nat) : Bool :=
  if i = 0 then true
  else
    match s[i]? with
    | some b => decide (b < 128) || decide (192 ≤ b)
    | none => decide (i = s.length)

/-- Embeds Rust string slicing `s[0..n]`: `none` models the panic raised
when `n` is not a char boundary of `s` (in particular when `n > s.len()`). -/
def strSliceTo (s : List Nat) (n : Nat) : Option (List Nat) :=
  if isCharBoundary s n then some (s.take n) else none

/-- Embeds `GitSha::to_short_string` (sha.rs): `self.0.to_string()[0..16]`,
where `to_string` renders `as_str`. The `none` case models the slicing panic. -/
def GitSha.toShortString (x : GitSha) : Option (List Nat) :=
  strSliceTo x.oid.asStr 16

/-- Rust `Ord::cmp` on unsigned integers, as an `Ordering`. -/
def natCompare (a b : Nat) : Ordering :=
  if a < b then .lt else if b < a then .gt else .eq

/-- Rust derived lexicographic comparison of byte sequences, as used for
`[u8; 40]` (elementwise, first difference decides). -/
def bytesCompare : List Nat → List Nat → Ordering
  | [], [] => .eq
  | [], _ :: _ => .lt
  | _ :: _, [] => .gt
  | a :: xs, b :: ys => (natCompare a b).then (bytesCompare xs ys)

/-- Embeds the derived `Ord`/`PartialOrd` on `GitOid` (sha.rs): fields are
compared in declaration order, `len` first and then the whole `bytes` buffer. -/
def GitOid.cmp (a b : GitOid) : Ordering :=
  (natCompare a.len b.len).then (bytesCompare a.bytes b.bytes)

/-- The spec's ordering: lexicographic byte order of the logical slices
(stated from the spec's words, for comparison against `GitOid.cmp`). -/
def GitOid.sliceCmp (a b : GitOid) : Ordering :=
  bytesCompare a.asStr b.asStr

/-- Invariant of parsed object ids: positive logical length within the
40-byte capacity, a full-size buffer, and a zeroed unused tail. -/
def GitOid.Inv (o : GitOid) : Prop :=
  1 ≤ o.len ∧ o.len ≤ 40 ∧ o.bytes.length = 40 ∧
    ∀ i, i < 40 → o.len ≤ i → o.bytes[i]? = some 0

/-- Embeds the `toml_edit::Value` shapes that `workspace.rs` distinguishes:
strings, arrays (with a flag recording whether `format_multiline_array` has
been applied, abstracting the per-element decoration), inline tables, and
everything else. -/
inductive TomlValue where
  | str (s : String)
  | array (elems : List TomlValue) (multiline : Bool)
  | inlineTable (entries : List (String × TomlValue))
  | other

/-- Embeds `toml_edit::Item`: a standard (non-inline) table, a value, or
anything else (`None`, array-of-tables). `as_table_mut` succeeds only on
`table`, `as_array_mut` only on `value (array ..)`, as in `toml_edit`. -/
inductive TomlItem where
  | table (entries : List (String × TomlItem))
  | value (v : TomlValue)
  | other

/-- The root table of a `toml_edit::Document`, order-preserving. -/
abbrev TomlDoc := List (String × TomlItem)

/-- Embeds `toml_edit::Table::get` / `get_mut`: the first binding of a key. -/
def tableGet {α : Type} (l : List (String × α)) (k : String) : Option α :=
  match l with
  | [] => none
  | (k₁, v₁) :: rest => if k₁ = k then some v₁ else tableGet rest k

/-- Embeds `toml_edit::Table::insert` (and mutation through `get_mut`):
replace the value of an existing key in place, otherwise append at the end. -/
def tableInsert {α : Type} (l : List (String × α)) (k : String) (v : α) :
    List (String × α) :=
  match l with
  | [] => [(k, v)]
  | (k₁, v₁) :: rest =>
    if k₁ = k then (k₁, v) :: rest else (k₁, v₁) :: tableInsert rest k v

def projectKey : String := "project"

def dependenciesKey : String := "dependencies"

def nameKey : String := "name"

def versionKey : String := "version"

def buildSystemKey : String := "build-system"

def requiresKey : String := "requires"

/-- A parsed `pep508_rs::Requirement` as consumed by `workspace.rs`: only the
package name is inspected (via normalization). -/
structure Req where
  name : String

/-- The requirement parser (`Requirement::from_str`), an opaque external
collaborator per the spec; the embedding is parameterized over it. -/
abbrev ReqParser := String → Option Req

/-- Modelled from the spec: `PackageName::normalize` (crate `puffin-package`,
not under `src/`) lowercases the name and collapses every run of `-`, `_`,
`.` into a single `-`. The flag tracks whether the previous character was
such a separator. -/
def normalizeChars (prevSep : Bool) : List Char → List Char
  | [] => []
  | c :: rest =>
    if c = '-' ∨ c = '_' ∨ c = '.' then
      if prevSep then normalizeChars true rest
      else '-' :: normalizeChars true rest
    else c.toLower :: normalizeChars false rest

/-- Modelled from the spec: package-name normalization (see
`normalizeChars`). -/
def normalizePackageName (s : String) : String :=
  String.mk (normalizeChars false s.data)

/-- The match test of `add_dependency`'s scan: an entry matches iff it is a
string, parses as a requirement, and has the same normalized name as the new
requirement. Entries failing either test are skipped. -/
def depMatches (p : ReqParser) (req : Req) (item : TomlValue) : Bool :=
  match item with
  | .str s =>
    match p s with
    | some existing =>
      normalizePackageName req.name == normalizePackageName existing.name
    | none => false
  | _ => false

/-- Embeds `Iterator::position`: index of the first element satisfying the
predicate. -/
def findMatch {α : Type} (q : α → Bool) : List α → Option Nat
  | [] => none
  | x :: xs => if q x then some 0 else (findMatch q xs).map (· + 1)

/-- The dependency-list update of `add_dependency`'s third case: replace the
first matching entry in place, otherwise push the new entry at the end. -/
def upsertEntries (p : ReqParser) (req : Req) (dep : String)
    (es : List TomlValue) : List TomlValue :=
  match findMatch (depMatches p req) es with
  | some i => es.set i (.str dep)
  | none => es ++ [.str dep]

/-- Modelled from the spec: `WorkspaceError` (crate root, not under `src/`). -/
inductive WorkspaceError where
  | ioFailure
  | malformedDocument
  | schemaViolation
  | invalidRequirement

/-- Result of `add_dependency`: success with the updated document, a typed
error together with the (unchanged) document, or a panic of one of the two
`unwrap`s. -/
inductive UpsertResult where
  | ok (doc : TomlDoc)
  | err (e : WorkspaceError) (doc : TomlDoc)
  | panic

/-- Embeds `Workspace::add_dependency` (workspace.rs). The requirement is
parsed before any mutation; a failed parse returns `InvalidRequirement` with
the document untouched. A `project` item that is not a standard table, or a
`dependencies` item that is not an array value, makes the corresponding
`unwrap` panic. Freshly created dependency arrays carry the multiline flag
set, embedding the `format_multiline_array` call (crate-level helper not
under `src/`, modelled from the spec as deterministic whole-list
reformatting). -/
def addDependency (p : ReqParser) (doc : TomlDoc) (dep : String) :
    UpsertResult :=
  match p dep with
  | none => .err .invalidRequirement doc
  | some req =>
    match tableGet doc projectKey with
    | none =>
      .ok (tableInsert doc projectKey
        (.table [(dependenciesKey, .value (.array [.str dep] true))]))
    | some (.table pt) =>
      match tableGet pt dependenciesKey with
      | none =>
        .ok (tableInsert doc projectKey
          (.table (tableInsert pt dependenciesKey
            (.value (.array [.str dep] true)))))
      | some (.value (.array es _)) =>
        .ok (tableInsert doc projectKey
          (.table (tableInsert pt dependenciesKey
            (.value (.array (upsertEntries p req dep es) true)))))
      | some _ => .panic
    | some _ => .panic

/-- Modelled from the spec: whether a single dependency entry is accepted by
the typed schema view (serde requires each element of
`project.dependencies` to be a string that parses as a requirement). -/
def elemParses (p : ReqParser) (v : TomlValue) : Bool :=
  match v with
  | .str s => (p s).isSome
  | _ => false

/-- Modelled from the spec: whether a value deserializes as a requirement
list (`Vec<Requirement>`): it must be an array of parsing strings. -/
def depsArrayOk (p : ReqParser) (v : TomlValue) : Bool :=
  match v with
  | .array es _ => es.all (elemParses p)
  | _ => false

/-- Modelled from the spec: the typed view of an inline `project` table
(serde accepts inline tables like standard ones): requires a string `name`
and, when present, a deserializable `dependencies` array. -/
def inlineProjectOk (p : ReqParser)
    (entries : List (String × TomlValue)) : Bool :=
  (match tableGet entries nameKey with
    | some (.str _) => true
    | _ => false) &&
  (match tableGet entries dependenciesKey with
    | none => true
    | some v => depsArrayOk p v)

/-- Modelled from the spec: the typed view of a standard `project` table:
requires a string `name` and, when present, a deserializable `dependencies`
array value. -/
def tableProjectOk (p : ReqParser) (pt : List (String × TomlItem)) : Bool :=
  (match tableGet pt nameKey with
    | some (.value (.str _)) => true
    | _ => false) &&
  (match tableGet pt dependenciesKey with
    | none => true
    | some (.value v) => depsArrayOk p v
    | some _ => false)

/-- Modelled from the spec: the `project` part of the typed schema view
(`pyproject_toml::Project` via serde): absent, or a standard or inline table
of the right shape. -/
def projectOk (p : ReqParser) (doc : TomlDoc) : Bool :=
  match tableGet doc projectKey with
  | none => true
  | some (.table pt) => tableProjectOk p pt
  | some (.value (.inlineTable entries)) => inlineProjectOk p entries
  | some _ => false

/-- Modelled from the spec: the `build-system` part of the typed schema view
(`pyproject_toml::BuildSystem` via serde): absent, or a standard or inline
table with a deserializable `requires` requirement list. -/
def buildSystemOk (p : ReqParser) (doc : TomlDoc) : Bool :=
  match tableGet doc buildSystemKey with
  | none => true
  | some (.table bt) =>
    (match tableGet bt requiresKey with
      | some (.value v) => depsArrayOk p v
      | _ => false)
  | some (.value (.inlineTable entries)) =>
    (match tableGet entries requiresKey with
      | some v => depsArrayOk p v
      | _ => false)
  | some _ => false

/-- Modelled from the spec: the typed schema pass of `Workspace::try_from`
(`toml_edit::de::from_str::<PyProjectToml>`), evaluated on the parsed tree:
both recognized top-level sections must have the expected shape. -/
def schemaOk (p : ReqParser) (doc : TomlDoc) : Bool :=
  projectOk p doc && buildSystemOk p doc

/-- Embeds the `Workspace` struct (workspace.rs): the typed view and the raw
document, both produced from the same input text by external parsers over
which the construction is parameterized. -/
structure WorkspaceModel (σ τ : Type) where
  pyprojectToml : τ
  document : σ

/-- Embeds `Workspace::try_from` (workspace.rs): parse the typed view first,
then the raw document; both must succeed. -/
def workspaceTryFrom {σ τ : Type} (parseTyped : String → Option τ)
    (parseDoc : String → Option σ) (contents : String) :
    Option (WorkspaceModel σ τ) :=
  match parseTyped contents with
  | none => none
  | some t =>
    match parseDoc contents with
    | none => none
    | some d => some { pyprojectToml := t, document := d }

/-- Embeds `Workspace::write` (workspace.rs): emit exactly the rendering of
the stored document (`document.to_string()`), nothing else. -/
def workspaceWrite {σ τ : Type} (renderDoc : σ → String)
    (w : WorkspaceModel σ τ) : String :=
  renderDoc w.document

/-- A concrete toy requirement parser (for witnesses): the whole text is the
name. -/
def toyParse : ReqParser := fun s => some { name := s }

/-- A concrete toy requirement parser (for witnesses): the name is the text
before the first `=`. -/
def toyParseEq : ReqParser :=
  fun s => some { name := String.mk (s.data.takeWhile (fun c => c ≠ '=')) }

/-- A concrete always-failing requirement parser (for witnesses). -/
def noParse : ReqParser := fun _ => none

/-- A concrete document parser that keeps the text itself (for witnesses). -/
def idParseDoc : String → Option String := fun s => some s

/-- A concrete trivial typed parser (for witnesses). -/
def unitParseTyped : String → Option Unit := fun _ => some ()

def sampleText : String := "x = 1"

def depFoo : String := "foo"

def depBar : String := "bar"

def depFooOne : String := "foo==1.0"

def depFooTwo : String := "foo==2.0"

def strX : String := "x"

def strV : String := "0.1.0"

/-- A document whose `project` item is an inline table: accepted by the
typed schema view, but `as_table_mut().unwrap()` panics on it. -/
def inlineProjectDoc : TomlDoc :=
  [(projectKey, .value (.inlineTable
    [(nameKey, .str strX), (versionKey, .str strV)]))]

/-- The entries of a standard `project` table with a dependency array. -/
def tableProjectEntries : List (String × TomlItem) :=
  [(nameKey, .value (.str strX)),
    (dependenciesKey, .value (.array [.str depFooOne] true))]

/-- A document whose `project` item is a standard table with a dependency
array. -/
def tableProjectDoc : TomlDoc :=
  [(projectKey, .table tableProjectEntries)]

/-- The document produced by upserting `"foo"` into the empty document. -/
def fooDoc : TomlDoc :=
  [(projectKey, .table
    [(dependenciesKey, .value (.array [.str depFoo] true))])]

theorem take_append_self {α : Type} (xs ys : List α) :
    (xs ++ ys).take xs.length = xs := by
  induction xs with
  | nil => simp
  | cons a xs ih => simp [ih]

theorem gitOid_fromStr_ok (s : List Nat) (h1 : 1 ≤ s.length) (h2 : s.length ≤ 40) :
    GitOid.fromStr s =
      .ok { len := s.length, bytes := s ++ List.replicate (40 - s.length) 0 } := by
  unfold GitOid.fromStr
  rw [if_neg (by omega), if_neg (by omega)]

theorem gitOid_fromStr_inv (s : List Nat) (o : GitOid)
    (h : GitOid.fromStr s = .ok o) :
    1 ≤ s.length ∧ s.length ≤ 40 ∧
      o = { len := s.length, bytes := s ++ List.replicate (40 - s.length) 0 } := by
  by_cases h0 : s.length = 0
  · unfold GitOid.fromStr at h
    rw [if_pos h0] at h
    exact absurd h (by simp)
  · by_cases h40 : 40 < s.length
    · unfold GitOid.fromStr at h
      rw [if_neg h0, if_pos h40] at h
      exact absurd h (by simp)
    · unfold GitOid.fromStr at h
      rw [if_neg h0, if_neg h40] at h
      injection h with h
      exact ⟨by omega, by omega, h.symm⟩

theorem gitOid_parsed_asStr (s : List Nat) (o : GitOid)
    (h : GitOid.fromStr s = .ok o) : o.asStr = s := by
  obtain ⟨-, -, rfl⟩ := gitOid_fromStr_inv s o h
  simp [GitOid.asStr, take_append_self]

theorem ordering_then_eq (o : Ordering) : o.then .eq = o := by
  cases o <;> rfl

theorem ordering_then_assoc (o p q : Ordering) :
    (o.then p).then q = o.then (p.then q) := by
  cases o <;> rfl

theorem ordering_then_of_ne_eq (o : Ordering) (p q : Ordering) (h : o ≠ .eq) :
    o.then p = o.then q := by
  cases o
  · rfl
  · exact absurd rfl h
  · rfl

theorem natCompare_self (a : Nat) : natCompare a a = .eq := by
  simp [natCompare]

theorem natCompare_eq_iff (a b : Nat) : natCompare a b = .eq ↔ a = b := by
  unfold natCompare
  by_cases h1 : a < b
  · rw [if_pos h1]
    constructor
    · intro h
      exact absurd h (by simp)
    · omega
  · by_cases h2 : b < a
    · rw [if_neg h1, if_pos h2]
      constructor
      · intro h
        exact absurd h (by simp)
      · omega
    · rw [if_neg h1, if_neg h2]
      constructor
      · omega
      · intro
        rfl

theorem bytesCompare_self (t : List Nat) : bytesCompare t t = .eq := by
  induction t with
  | nil => rfl
  | cons a t ih =>
    show (natCompare a a).then (bytesCompare t t) = .eq
    rw [natCompare_self, ih]
    rfl

theorem bytesCompare_append (xs ys t u : List Nat) (h : xs.length = ys.length) :
    bytesCompare (xs ++ t) (ys ++ u) =
      (bytesCompare xs ys).then (bytesCompare t u) := by
  induction xs generalizing ys with
  | nil =>
    cases ys with
    | nil => rfl
    | cons b ys => simp at h
  | cons a xs ih =>
    cases ys with
    | nil => simp at h
    | cons b ys =>
      show (natCompare a b).then (bytesCompare (xs ++ t) (ys ++ u)) =
        ((natCompare a b).then (bytesCompare xs ys)).then (bytesCompare t u)
      rw [ih ys (by simpa using h), ordering_then_assoc]

theorem gitOid_inv_eq_iff (o₁ o₂ : GitOid) (h₁ : o₁.Inv) (h₂ : o₂.Inv) :
    o₁ = o₂ ↔ o₁.len = o₂.len ∧ o₁.asStr = o₂.asStr := by
  constructor
  · intro h
    rw [h]
    exact ⟨rfl, rfl⟩
  · rintro ⟨hl, hs⟩
    obtain ⟨-, -, g3, g4⟩ := h₁
    obtain ⟨-, -, k3, k4⟩ := h₂
    have hb : o₁.bytes = o₂.bytes := by
      apply List.ext_getElem?
      intro i
      by_cases hi : i < o₁.len
      · have e1 : o₁.asStr[i]? = o₁.bytes[i]? := List.getElem?_take_of_lt hi
        have e2 : o₂.asStr[i]? = o₂.bytes[i]? :=
          List.getElem?_take_of_lt (by omega : i < o₂.len)
        rw [← e1, ← e2, hs]
      · by_cases hi40 : i < 40
        · rw [g4 i hi40 (by omega), k4 i hi40 (by omega)]
        · rw [List.getElem?_eq_none_iff.mpr (by omega),
            List.getElem?_eq_none_iff.mpr (by omega)]
    cases o₁
    cases o₂
    simp only [GitOid.mk.injEq]
    exact ⟨hl, hb⟩

/-- C2: `GitOid` parsing succeeds iff `1 ≤ len(s) ≤ 40`; it returns `Empty`
exactly on the empty string and `TooLong` exactly above 40 bytes; on success
it copies the bytes of `s` and records the length, with no hexadecimal
validation and no other effect. -/
theorem c2_parse_characterization (s : List Nat) :
    (GitOid.fromStr s = .error .empty ↔ s.length = 0) ∧
    (GitOid.fromStr s = .error .tooLong ↔ 40 < s.length) ∧
    ((∃ o, GitOid.fromStr s = .ok o) ↔ 1 ≤ s.length ∧ s.length ≤ 40) ∧
    (1 ≤ s.length → s.length ≤ 40 →
      GitOid.fromStr s =
        .ok { len := s.length, bytes := s ++ List.replicate (40 - s.length) 0 }) := by
  by_cases h0 : s.length = 0
  · have he : GitOid.fromStr s = .error .empty := by
      unfold GitOid.fromStr
      rw [if_pos h0]
    refine ⟨by simp [he, h0], ?_, ?_, fun h1 _ => absurd h1 (by omega)⟩
    · rw [he]
      simp only [Except.error.injEq]
      constructor
      · intro hc
        exact absurd hc (by simp)
      · intro hc
        omega
    · rw [he]
      constructor
      · rintro ⟨o, ho⟩
        exact absurd ho (by simp)
      · intro hc
        omega
  · by_cases h40 : 40 < s.length
    · have he : GitOid.fromStr s = .error .tooLong := by
        unfold GitOid.fromStr
        rw [if_neg h0, if_pos h40]
      refine ⟨?_, by simp [he, h40], ?_, fun _ h2 => absurd h2 (by omega)⟩
      · rw [he]
        simp only [Except.error.injEq]
        constructor
        · intro hc
          exact absurd hc (by simp)
        · intro hc
          omega
      · rw [he]
        constructor
        · rintro ⟨o, ho⟩
          exact absurd ho (by simp)
        · intro hc
          omega
    · have he := gitOid_fromStr_ok s (by omega) (by omega)
      refine ⟨?_, ?_, ?_, fun _ _ => he⟩
      · rw [he]
        constructor
        · intro hc
          exact absurd hc (by simp)
        · intro hc
          omega
      · rw [he]
        constructor
        · intro hc
          exact absurd hc (by simp)
        · intro hc
          omega
      · rw [he]
        constructor
        · intro
          omega
        · intro
          exact ⟨_, rfl⟩

theorem c2_witness :
    GitOid.fromStr [122, 122] =
      .ok { len := 2, bytes := [122, 122] ++ List.replicate 38 0 } :=
  (c2_parse_characterization [122, 122]).2.2.2 (by decide) (by decide)

/-- C8: parsing a string of byte length 1..40 into a `GitOid` and taking its
canonical string form returns exactly the input: no case normalization, no
truncation, and no bytes of the unused tail. -/
theorem c8_canonical_round_trip (s : List Nat) (h1 : 1 ≤ s.length)
    (h2 : s.length ≤ 40) :
    ∃ o, GitOid.fromStr s = .ok o ∧ o.asStr = s :=
  ⟨_, gitOid_fromStr_ok s h1 h2, gitOid_parsed_asStr s _ (gitOid_fromStr_ok s h1 h2)⟩

theorem c8_witness :
    ∃ o, GitOid.fromStr [97, 66, 99] = .ok o ∧ o.asStr = [97, 66, 99] :=
  c8_canonical_round_trip [97, 66, 99] (by decide) (by decide)

/-- C10: every parsed `GitOid` has `1 ≤ len ≤ 40`, a full 40-byte buffer and a
zeroed tail, and under this invariant whole-struct equality is determined by
the pair (logical length, logical slice) alone, which is what makes the
derived equality, ordering and hashing independent of the unused tail. -/
theorem c10_parsed_invariant (s : List Nat) (o : GitOid)
    (h : GitOid.fromStr s = .ok o) :
    GitOid.Inv o ∧
      ∀ o₂ : GitOid, GitOid.Inv o₂ →
        (o = o₂ ↔ o.len = o₂.len ∧ o.asStr = o₂.asStr) := by
  obtain ⟨h1, h2, rfl⟩ := gitOid_fromStr_inv s o h
  have hInv : GitOid.Inv
      { len := s.length, bytes := s ++ List.replicate (40 - s.length) 0 } := by
    refine ⟨h1, h2, by simp; omega, ?_⟩
    intro i hi40 hlen
    have hlen' : s.length ≤ i := hlen
    show (s ++ List.replicate (40 - s.length) 0)[i]? = some 0
    rw [List.getElem?_append_right hlen']
    exact List.getElem?_replicate_of_lt (by omega)
  exact ⟨hInv, fun o₂ hinv₂ => gitOid_inv_eq_iff _ o₂ hInv hinv₂⟩

theorem c10_witness :
    GitOid.Inv { len := 1, bytes := [98] ++ List.replicate 39 0 } ∧
      (({ len := 1, bytes := [98] ++ List.replicate 39 0 } : GitOid) =
          { len := 2, bytes := [97, 97] ++ List.replicate 38 0 } ↔
        ({ len := 1, bytes := [98] ++ List.replicate 39 0 } : GitOid).len =
            ({ len := 2, bytes := [97, 97] ++ List.replicate 38 0 } : GitOid).len ∧
          ({ len := 1, bytes := [98] ++ List.replicate 39 0 } : GitOid).asStr =
            ({ len := 2, bytes := [97, 97] ++ List.replicate 38 0 } : GitOid).asStr) :=
  ⟨(c10_parsed_invariant [98] _ rfl).1,
    (c10_parsed_invariant [98] _ rfl).2 _ (c10_parsed_invariant [97, 97] _ rfl).1⟩

/-- C1 (code bug): `to_short_string` of a parsed 40-character id returns its
first 16 characters, but on a parsed 5-character id the source's
unconditional `to_string()[0..16]` slice fails (`none` models the panic),
contradicting the claim that the call never fails and returns all 5
characters. -/
theorem c1_short_string_eval :
    (GitSha.fromStr (List.replicate 40 97)).map GitSha.toShortString =
        .ok (some (List.replicate 16 97)) ∧
      (GitSha.fromStr [97, 98, 99, 100, 101]).map GitSha.toShortString =
        .ok none :=
  ⟨rfl, rfl⟩

/-- C3 (counterexample): the derived ordering on `GitOid` compares `len`
first, so the parsed 1-byte id 0x62 sorts strictly below the parsed 2-byte id
0x61 0x61, while the lexicographic byte order of the logical slices claimed
by the spec sorts it strictly above. -/
theorem c3_counterexample :
    ¬ ∀ (s₁ s₂ : List Nat) (o₁ o₂ : GitOid),
        GitOid.fromStr s₁ = .ok o₁ → GitOid.fromStr s₂ = .ok o₂ →
        ((o₁ = o₂ ↔ o₁.asStr = o₂.asStr) ∧
          (o₁.len ≠ o₂.len → o₁ ≠ o₂) ∧
          GitOid.cmp o₁ o₂ = GitOid.sliceCmp o₁ o₂) := by
  intro h
  have hc :=
    (h [98] [97, 97] { len := 1, bytes := [98] ++ List.replicate 39 0 }
        { len := 2, bytes := [97, 97] ++ List.replicate 38 0 }
        rfl rfl).2.2
  exact absurd hc (by decide)

/-- C3 (amended): for parsed ids, equality holds iff the logical slices are
equal, ids of different logical length are never equal, and the derived
ordering compares the logical length first and then the logical slices
byte-wise (the zeroed tails contribute nothing). -/
theorem c3_amended_eq_ord (s₁ s₂ : List Nat) (o₁ o₂ : GitOid)
    (h₁ : GitOid.fromStr s₁ = .ok o₁) (h₂ : GitOid.fromStr s₂ = .ok o₂) :
    (o₁ = o₂ ↔ o₁.asStr = o₂.asStr) ∧
      (o₁.len ≠ o₂.len → o₁ ≠ o₂) ∧
      GitOid.cmp o₁ o₂ =
        (natCompare o₁.len o₂.len).then (bytesCompare o₁.asStr o₂.asStr) := by
  have e₁ := gitOid_parsed_asStr s₁ o₁ h₁
  have e₂ := gitOid_parsed_asStr s₂ o₂ h₂
  obtain ⟨g1, g2, rfl⟩ := gitOid_fromStr_inv s₁ o₁ h₁
  obtain ⟨k1, k2, rfl⟩ := gitOid_fromStr_inv s₂ o₂ h₂
  refine ⟨?_, ?_, ?_⟩
  · constructor
    · intro h
      rw [h]
    · intro h
      rw [e₁, e₂] at h
      subst h
      rfl
  · intro hne he
    exact hne (congrArg GitOid.len he)
  · rw [e₁, e₂]
    show (natCompare s₁.length s₂.length).then
        (bytesCompare (s₁ ++ List.replicate (40 - s₁.length) 0)
          (s₂ ++ List.replicate (40 - s₂.length) 0)) =
      (natCompare s₁.length s₂.length).then (bytesCompare s₁ s₂)
    by_cases hl : s₁.length = s₂.length
    · rw [bytesCompare_append s₁ s₂ _ _ hl, hl, bytesCompare_self,
        ordering_then_eq]
    · exact ordering_then_of_ne_eq _ _ _
        (fun hc => hl ((natCompare_eq_iff _ _).mp hc))

theorem c3_amended_witness :
    (({ len := 1, bytes := [97] ++ List.replicate 39 0 } : GitOid) =
        { len := 1, bytes := [98] ++ List.replicate 39 0 } ↔
      ({ len := 1, bytes := [97] ++ List.replicate 39 0 } : GitOid).asStr =
        ({ len := 1, bytes := [98] ++ List.replicate 39 0 } : GitOid).asStr) ∧
      (({ len := 1, bytes := [97] ++ List.replicate 39 0 } : GitOid).len ≠
          ({ len := 1, bytes := [98] ++ List.replicate 39 0 } : GitOid).len →
        ({ len := 1, bytes := [97] ++ List.replicate 39 0 } : GitOid) ≠
          { len := 1, bytes := [98] ++ List.replicate 39 0 }) ∧
      GitOid.cmp { len := 1, bytes := [97] ++ List.replicate 39 0 }
          { len := 1, bytes := [98] ++ List.replicate 39 0 } =
        (natCompare ({ len := 1, bytes := [97] ++ List.replicate 39 0 } : GitOid).len
            ({ len := 1, bytes := [98] ++ List.replicate 39 0 } : GitOid).len).then
          (bytesCompare
            ({ len := 1, bytes := [97] ++ List.replicate 39 0 } : GitOid).asStr
            ({ len := 1, bytes := [98] ++ List.replicate 39 0 } : GitOid).asStr) :=
  c3_amended_eq_ord [97] [98] _ _ rfl rfl

theorem tableGet_tableInsert_self {α : Type} (l : List (String × α))
    (k : String) (v : α) : tableGet (tableInsert l k v) k = some v := by
  induction l with
  | nil => simp [tableInsert, tableGet]
  | cons hd tl ih =>
    obtain ⟨k₁, v₁⟩ := hd
    by_cases h : k₁ = k
    · simp [tableInsert, tableGet, h]
    · simp [tableInsert, tableGet, h, ih]

theorem tableInsert_get_eq {α : Type} (l : List (String × α)) (k : String)
    (v : α) (h : tableGet l k = some v) : tableInsert l k v = l := by
  induction l with
  | nil => simp [tableGet] at h
  | cons hd tl ih =>
    obtain ⟨k₁, v₁⟩ := hd
    by_cases hk : k₁ = k
    · simp only [tableGet, if_pos hk, Option.some.injEq] at h
      simp [tableInsert, hk, h]
    · simp only [tableGet, if_neg hk] at h
      simp [tableInsert, hk, ih h]

theorem findMatch_none_iff {α : Type} (q : α → Bool) (l : List α) :
    findMatch q l = none ↔ ∀ x ∈ l, q x = false := by
  induction l with
  | nil => simp [findMatch]
  | cons a l ih =>
    cases ha : q a with
    | true => simp [findMatch, ha]
    | false => simp [findMatch, ha, ih]

theorem findMatch_some_spec {α : Type} (q : α → Bool) (l : List α) (i : Nat)
    (h : findMatch q l = some i) :
    i < l.length ∧ (∃ v, l[i]? = some v ∧ q v = true) ∧
      ∀ j, j < i → ∀ v, l[j]? = some v → q v = false := by
  induction l generalizing i with
  | nil => simp [findMatch] at h
  | cons a l ih =>
    cases ha : q a with
    | true =>
      simp only [findMatch, ha, if_pos, Option.some.injEq] at h
      subst h
      refine ⟨by simp, ⟨a, by simp, ha⟩, ?_⟩
      intro j hj
      omega
    | false =>
      have hunf : findMatch q (a :: l) = (findMatch q l).map (· + 1) := by
        simp [findMatch, ha]
      rw [hunf] at h
      obtain ⟨i', hi', hback⟩ := Option.map_eq_some'.mp h
      subst hback
      obtain ⟨hlen, ⟨v, hv, hq⟩, hpre⟩ := ih i' hi'
      refine ⟨by simp; omega, ⟨v, by simpa using hv, hq⟩, ?_⟩
      intro j hj v' hv'
      cases j with
      | zero =>
        simp only [List.getElem?_cons_zero, Option.some.injEq] at hv'
        subst hv'
        exact ha
      | succ j' =>
        exact hpre j' (by omega) v' (by simpa using hv')

theorem findMatch_some_of {α : Type} (q : α → Bool) (l : List α) (i : Nat)
    (w : α) (hpre : ∀ j, j < i → ∀ v, l[j]? = some v → q v = false)
    (hi : l[i]? = some w) (hw : q w = true) :
    findMatch q l = some i := by
  induction l generalizing i with
  | nil => simp at hi
  | cons a l ih =>
    cases i with
    | zero =>
      simp only [List.getElem?_cons_zero, Option.some.injEq] at hi
      subst hi
      simp [findMatch, hw]
    | succ i =>
      have ha : q a = false := hpre 0 (by omega) a (by simp)
      have hrec : findMatch q l = some i := by
        apply ih i
        · intro j hj v hv
          exact hpre (j + 1) (by omega) v (by simpa using hv)
        · simpa using hi
      simp [findMatch, ha, hrec]

theorem set_getElem?_eq {α : Type} (l : List α) (i : Nat) (v : α)
    (h : l[i]? = some v) : l.set i v = l := by
  obtain ⟨hlt, -⟩ := List.getElem?_eq_some.mp h
  apply List.ext_getElem?
  intro j
  by_cases hj : j = i
  · subst hj
    rw [List.getElem?_set_self hlt, h]
  · exact List.getElem?_set_ne (fun hc => hj hc.symm)

theorem depMatches_self (p : ReqParser) (req : Req) (r : String)
    (hr : p r = some req) : depMatches p req (.str r) = true := by
  simp [depMatches, hr]

theorem addDependency_no_project (p : ReqParser) (doc : TomlDoc) (dep : String)
    (req : Req) (hr : p dep = some req)
    (hp : tableGet doc projectKey = none) :
    addDependency p doc dep = .ok (tableInsert doc projectKey
      (.table [(dependenciesKey, .value (.array [.str dep] true))])) := by
  unfold addDependency
  rw [hr, hp]

theorem addDependency_no_deps (p : ReqParser) (doc : TomlDoc) (dep : String)
    (req : Req) (pt : List (String × TomlItem)) (hr : p dep = some req)
    (hp : tableGet doc projectKey = some (.table pt))
    (hd : tableGet pt dependenciesKey = none) :
    addDependency p doc dep = .ok (tableInsert doc projectKey
      (.table (tableInsert pt dependenciesKey
        (.value (.array [.str dep] true))))) := by
  unfold addDependency
  rw [hr, hp]
  dsimp only
  rw [hd]

theorem addDependency_with_deps (p : ReqParser) (doc : TomlDoc) (dep : String)
    (req : Req) (pt : List (String × TomlItem)) (es : List TomlValue)
    (m : Bool) (hr : p dep = some req)
    (hp : tableGet doc projectKey = some (.table pt))
    (hd : tableGet pt dependenciesKey = some (.value (.array es m))) :
    addDependency p doc dep = .ok (tableInsert doc projectKey
      (.table (tableInsert pt dependenciesKey
        (.value (.array (upsertEntries p req dep es) true))))) := by
  unfold addDependency
  rw [hr, hp]
  dsimp only
  rw [hd]

theorem addDependency_panic_project (p : ReqParser) (doc : TomlDoc)
    (dep : String) (req : Req) (it : TomlItem) (hr : p dep = some req)
    (hp : tableGet doc projectKey = some it)
    (hshape : ∀ pt, it ≠ .table pt) :
    addDependency p doc dep = .panic := by
  cases it with
  | table pt => exact absurd rfl (hshape pt)
  | value v =>
    unfold addDependency
    rw [hr, hp]
  | other =>
    unfold addDependency
    rw [hr, hp]

theorem addDependency_panic_deps (p : ReqParser) (doc : TomlDoc)
    (dep : String) (req : Req) (pt : List (String × TomlItem)) (di : TomlItem)
    (hr : p dep = some req)
    (hp : tableGet doc projectKey = some (.table pt))
    (hd : tableGet pt dependenciesKey = some di)
    (hshape : ∀ es m, di ≠ .value (.array es m)) :
    addDependency p doc dep = .panic := by
  cases di with
  | table e =>
    unfold addDependency
    rw [hr, hp]
    dsimp only
    rw [hd]
  | value v =>
    cases v with
    | array es m => exact absurd rfl (hshape es m)
    | str s =>
      unfold addDependency
      rw [hr, hp]
      dsimp only
      rw [hd]
    | inlineTable e =>
      unfold addDependency
      rw [hr, hp]
      dsimp only
      rw [hd]
    | other =>
      unfold addDependency
      rw [hr, hp]
      dsimp only
      rw [hd]
  | other =>
    unfold addDependency
    rw [hr, hp]
    dsimp only
    rw [hd]

theorem upsertEntries_single_self (p : ReqParser) (req : Req) (r : String)
    (hr : p r = some req) : upsertEntries p req r [.str r] = [.str r] := by
  simp [upsertEntries, findMatch, depMatches_self p req r hr]

theorem upsertEntries_idem (p : ReqParser) (req : Req) (r : String)
    (es : List TomlValue) (hr : p r = some req) :
    upsertEntries p req r (upsertEntries p req r es) =
      upsertEntries p req r es := by
  have hmatch := depMatches_self p req r hr
  cases hm : findMatch (depMatches p req) es with
  | some i =>
    obtain ⟨hilen, ⟨v, hv, hq⟩, hpre⟩ := findMatch_some_spec _ _ _ hm
    have h1 : upsertEntries p req r es = es.set i (.str r) := by
      simp [upsertEntries, hm]
    rw [h1]
    have hfm2 : findMatch (depMatches p req) (es.set i (.str r)) = some i := by
      apply findMatch_some_of _ _ i (TomlValue.str r)
      · intro j hj v' hv'
        rw [List.getElem?_set_ne (by omega : i ≠ j)] at hv'
        exact hpre j hj v' hv'
      · exact List.getElem?_set_self hilen
      · exact hmatch
    simp [upsertEntries, hfm2, List.set_set]
  | none =>
    have hall := (findMatch_none_iff _ _).1 hm
    have h1 : upsertEntries p req r es = es ++ [.str r] := by
      simp [upsertEntries, hm]
    rw [h1]
    have hfm2 : findMatch (depMatches p req) (es ++ [.str r]) =
        some es.length := by
      apply findMatch_some_of _ _ es.length (TomlValue.str r)
      · intro j hj v' hv'
        rw [List.getElem?_append_left hj] at hv'
        exact hall v' (List.getElem?_mem hv')
      · exact List.getElem?_concat_length es _
      · exact hmatch
    simp only [upsertEntries, hfm2]
    exact set_getElem?_eq _ _ _ (List.getElem?_concat_length es _)

theorem addDependency_stable (p : ReqParser) (d : TomlDoc) (r : String)
    (req : Req) (pt : List (String × TomlItem)) (es : List TomlValue)
    (hr : p r = some req)
    (h₁ : tableGet d projectKey = some (.table pt))
    (h₂ : tableGet pt dependenciesKey = some (.value (.array es true)))
    (h₃ : upsertEntries p req r es = es) :
    addDependency p d r = .ok d := by
  rw [addDependency_with_deps p d r req pt es true hr h₁ h₂, h₃,
    tableInsert_get_eq pt dependenciesKey _ h₂,
    tableInsert_get_eq d projectKey _ h₁]

/-- C4: when the specifier string fails to parse as a requirement, the upsert
returns an `InvalidRequirement` error and the document is completely
unmodified — the requirement is parsed before any edit, so no partial
mutation is possible. -/
theorem c4_invalid_requirement_unchanged (p : ReqParser) (doc : TomlDoc)
    (dep : String) (h : p dep = none) :
    addDependency p doc dep = .err .invalidRequirement doc := by
  unfold addDependency
  rw [h]

theorem c4_witness :
    noParse depFoo = none ∧
      addDependency noParse ([] : TomlDoc) depFoo =
        .err .invalidRequirement [] :=
  ⟨rfl, c4_invalid_requirement_unchanged noParse [] depFoo rfl⟩

/-- C5: the upsert is idempotent: if upserting a valid specifier into a
document succeeds with result `doc₁`, upserting the same specifier into
`doc₁` returns `doc₁` itself, so the twice-upserted document renders
identically to the once-upserted one. -/
theorem c5_upsert_idempotent (p : ReqParser) (doc doc₁ : TomlDoc) (r : String)
    (req : Req) (hr : p r = some req)
    (h1 : addDependency p doc r = .ok doc₁) :
    addDependency p doc₁ r = .ok doc₁ := by
  cases hpj : tableGet doc projectKey with
  | none =>
    rw [addDependency_no_project p doc r req hr hpj] at h1
    injection h1 with h1
    subst h1
    apply addDependency_stable p _ r req _ [.str r] hr
    · exact tableGet_tableInsert_self doc projectKey _
    · rfl
    · exact upsertEntries_single_self p req r hr
  | some it =>
    cases it with
    | table pt =>
      cases hdp : tableGet pt dependenciesKey with
      | none =>
        rw [addDependency_no_deps p doc r req pt hr hpj hdp] at h1
        injection h1 with h1
        subst h1
        apply addDependency_stable p _ r req _ [.str r] hr
        · exact tableGet_tableInsert_self doc projectKey _
        · exact tableGet_tableInsert_self pt dependenciesKey _
        · exact upsertEntries_single_self p req r hr
      | some di =>
        cases di with
        | value v =>
          cases v with
          | array es m =>
            rw [addDependency_with_deps p doc r req pt es m hr hpj hdp] at h1
            injection h1 with h1
            subst h1
            apply addDependency_stable p _ r req _
              (upsertEntries p req r es) hr
            · exact tableGet_tableInsert_self doc projectKey _
            · exact tableGet_tableInsert_self pt dependenciesKey _
            · exact upsertEntries_idem p req r es hr
          | str s =>
            rw [addDependency_panic_deps p doc r req pt _ hr hpj hdp
              (by simp)] at h1
            exact UpsertResult.noConfusion h1
          | inlineTable e =>
            rw [addDependency_panic_deps p doc r req pt _ hr hpj hdp
              (by simp)] at h1
            exact UpsertResult.noConfusion h1
          | other =>
            rw [addDependency_panic_deps p doc r req pt _ hr hpj hdp
              (by simp)] at h1
            exact UpsertResult.noConfusion h1
        | table e =>
          rw [addDependency_panic_deps p doc r req pt _ hr hpj hdp
            (by simp)] at h1
          exact UpsertResult.noConfusion h1
        | other =>
          rw [addDependency_panic_deps p doc r req pt _ hr hpj hdp
            (by simp)] at h1
          exact UpsertResult.noConfusion h1
    | value v =>
      rw [addDependency_panic_project p doc r req _ hr hpj (by simp)] at h1
      exact UpsertResult.noConfusion h1
    | other =>
      rw [addDependency_panic_project p doc r req _ hr hpj (by simp)] at h1
      exact UpsertResult.noConfusion h1

theorem c5_witness :
    addDependency toyParse ([] : TomlDoc) depFoo = .ok fooDoc ∧
      addDependency toyParse fooDoc depFoo = .ok fooDoc :=
  ⟨rfl, c5_upsert_idempotent toyParse [] fooDoc depFoo { name := depFoo }
    rfl rfl⟩

/-- C6: with an existing dependency array, the upsert scans the entries in
order (skipping, and leaving in place, every entry that is not a string or
fails to parse); on the first entry with the same normalized name it
replaces that entry in place — same index, list length unchanged, every
other entry preserved exactly — and with no match it appends the new entry
at the end, preserving all existing entries at their positions. -/
theorem c6_scan_replace_append (p : ReqParser) (doc : TomlDoc)
    (pt : List (String × TomlItem)) (es : List TomlValue) (m : Bool)
    (r : String) (req : Req)
    (hp : tableGet doc projectKey = some (.table pt))
    (hd : tableGet pt dependenciesKey = some (.value (.array es m)))
    (hr : p r = some req) :
    addDependency p doc r = .ok (tableInsert doc projectKey
      (.table (tableInsert pt dependenciesKey
        (.value (.array (upsertEntries p req r es) true))))) ∧
    ((∃ i, findMatch (depMatches p req) es = some i ∧
        (∀ j, j < i → ∀ v, es[j]? = some v → depMatches p req v = false) ∧
        (∃ v, es[i]? = some v ∧ depMatches p req v = true) ∧
        upsertEntries p req r es = es.set i (.str r) ∧
        (upsertEntries p req r es).length = es.length ∧
        (∀ j, j ≠ i → (upsertEntries p req r es)[j]? = es[j]?)) ∨
      (findMatch (depMatches p req) es = none ∧
        (∀ v ∈ es, depMatches p req v = false) ∧
        upsertEntries p req r es = es ++ [.str r] ∧
        (∀ j, j < es.length → (upsertEntries p req r es)[j]? = es[j]?))) := by
  refine ⟨addDependency_with_deps p doc r req pt es m hr hp hd, ?_⟩
  cases hm : findMatch (depMatches p req) es with
  | some i =>
    obtain ⟨hilen, ⟨v, hv, hq⟩, hpre⟩ := findMatch_some_spec _ _ _ hm
    have he : upsertEntries p req r es = es.set i (.str r) := by
      simp [upsertEntries, hm]
    refine Or.inl ⟨i, rfl, hpre, ⟨v, hv, hq⟩, he, ?_, ?_⟩
    · rw [he]
      simp
    · intro j hj
      rw [he]
      exact List.getElem?_set_ne (fun hc => hj hc.symm)
  | none =>
    have he : upsertEntries p req r es = es ++ [.str r] := by
      simp [upsertEntries, hm]
    refine Or.inr ⟨rfl, (findMatch_none_iff _ _).1 hm, he, ?_⟩
    intro j hj
    rw [he]
    exact List.getElem?_append_left hj

theorem c6_witness :
    addDependency toyParseEq tableProjectDoc depFooTwo =
      .ok (tableInsert tableProjectDoc projectKey
        (.table (tableInsert tableProjectEntries dependenciesKey
          (.value (.array (upsertEntries toyParseEq { name := depFoo }
            depFooTwo [.str depFooOne]) true))))) :=
  (c6_scan_replace_append toyParseEq tableProjectDoc tableProjectEntries
    [.str depFooOne] true depFooTwo { name := depFoo } rfl rfl rfl).1

/-- C9 (counterexample): a document whose `project` item is an inline table
passes the typed schema view of the two-pass construction (serde accepts
inline tables), yet `add_dependency` with a valid specifier panics on it —
the `as_table_mut().unwrap()` fails — so the upsert is not total on all
constructed documents. -/
theorem c9_counterexample :
    ¬ ∀ (p : ReqParser) (doc : TomlDoc) (dep : String) (req : Req),
        schemaOk p doc = true → p dep = some req →
        addDependency p doc dep ≠ .panic := by
  intro h
  exact h toyParse inlineProjectDoc depFoo { name := depFoo } rfl rfl rfl

/-- C9 (amended): the upsert with a valid specifier is total — it never
panics — on every schema-checked document whose `project` item, when
present, is a standard (non-inline) table: the typed view then guarantees
that a `dependencies` item under it is an array value, so neither `unwrap`
fails. (The typed view also accepts an inline `project` table, on which the
table conversion does panic.) -/
theorem c9_amended_total (p : ReqParser) (doc : TomlDoc) (dep : String)
    (req : Req) (hs : schemaOk p doc = true) (hr : p dep = some req)
    (hshape : tableGet doc projectKey = none ∨
      ∃ pt, tableGet doc projectKey = some (.table pt)) :
    addDependency p doc dep ≠ .panic := by
  rcases hshape with hnone | ⟨pt, hpt⟩
  · rw [addDependency_no_project p doc dep req hr hnone]
    exact fun c => UpsertResult.noConfusion c
  · have hproj : projectOk p doc = true := by
      have hb := hs
      unfold schemaOk at hb
      exact (Bool.and_eq_true_iff.mp hb).1
    have htp : tableProjectOk p pt = true := by
      unfold projectOk at hproj
      rw [hpt] at hproj
      exact hproj
    have hdep := (Bool.and_eq_true_iff.mp htp).2
    cases hdp : tableGet pt dependenciesKey with
    | none =>
      rw [addDependency_no_deps p doc dep req pt hr hpt hdp]
      exact fun c => UpsertResult.noConfusion c
    | some di =>
      rw [hdp] at hdep
      cases di with
      | value v =>
        cases v with
        | array es m =>
          rw [addDependency_with_deps p doc dep req pt es m hr hpt hdp]
          exact fun c => UpsertResult.noConfusion c
        | str s => simp [depsArrayOk] at hdep
        | inlineTable e => simp [depsArrayOk] at hdep
        | other => simp [depsArrayOk] at hdep
      | table e => simp at hdep
      | other => simp at hdep

theorem c9_witness :
    addDependency toyParse tableProjectDoc depFoo ≠ .panic :=
  c9_amended_total toyParse tableProjectDoc depFoo { name := depFoo } rfl rfl
    (Or.inr ⟨tableProjectEntries, rfl⟩)

/-- C7: given the format-preservation contract of the external document
parser/renderer pair (`toml_edit`: rendering an unmutated parsed tree
reproduces the input), every text on which construction succeeds is written
back byte-identically: `try_from` stores the parsed tree unchanged, and
`write` emits exactly the tree's rendering and nothing else. -/
theorem c7_round_trip {σ τ : Type} (parseTyped : String → Option τ)
    (parseDoc : String → Option σ) (renderDoc : σ → String)
    (hRT : ∀ T d, parseDoc T = some d → renderDoc d = T)
    (T : String) (w : WorkspaceModel σ τ)
    (hw : workspaceTryFrom parseTyped parseDoc T = some w) :
    workspaceWrite renderDoc w = T := by
  unfold workspaceTryFrom at hw
  cases hpt : parseTyped T with
  | none =>
    rw [hpt] at hw
    exact Option.noConfusion hw
  | some t =>
    rw [hpt] at hw
    dsimp only at hw
    cases hpd : parseDoc T with
    | none =>
      rw [hpd] at hw
      exact Option.noConfusion hw
    | some d =>
      rw [hpd] at hw
      dsimp only at hw
      injection hw with hw
      subst hw
      exact hRT T d hpd

theorem c7_witness :
    workspaceWrite id (WorkspaceModel.mk () sampleText) = sampleText :=
  c7_round_trip unitParseTyped idParseDoc id
    (fun T d h => by
      injection h with h
      subst h
      rfl)
    sampleText (WorkspaceModel.mk () sampleText) rfl
